import Mathlib

/-!
Shallow embedding of the `clif` command-line routing library.

The embedding follows the Go source:
* `FlagDef`, `FlagParser`, `Flag` and `listFlagDefs` from `flags.go`;
* `Command`, `parsedCommand` and `parse` from `commands.go`;
* `ExtraInputError`, `RouteResult` and `Route` from `route.go`;
* `Application` from `application.go`.

Modelling conventions:
* Go `string` is modelled as `List Char` (`Str` below), so that every
  string operation is structurally recursive and evaluates inside the
  kernel: `strings.ToLower` is `strToLower` (character-wise
  `Char.toLower`, which agrees with Go on the ASCII names involved),
  `strings.HasPrefix` is `startsWithStr`, `strings.TrimPrefix` after a
  checked two-dash marker is `List.drop 2`, and `strings.Cut` with the
  one-character separator `=` is `cutChar`.
* Go maps keyed by `string` are association lists (`List (Str × α)`)
  with overwrite-on-set (`mapSet`) and `Option`-valued lookup (`mapGet`,
  `lookupDef`); a Go `nil` interface value is `Option.none`.
* Go errors are the inductive `ParseError`.  A `FlagParser` reports its
  own failures as plain strings (Go's opaque `error`), which `parse`
  propagates as `ParseError.converter`.  `ExtraInputError` in Go carries
  the `Application` and the matched `[]Command`; to keep the error type
  independent of the (function-carrying) tree types, the model stores
  the command path as the list of command names, which is exactly the
  data its `Error()` rendering uses.
* Fields of the Go structs that only feed the excluded help/handler
  collaborators (`Description`, `Hidden`, `Handler`, `FlagType`) are
  omitted: `parse` and `Route` never read them.
-/

namespace Clif

/-- Go `string`, modelled as its character sequence. -/
abbrev Str : Type := List Char

/-- Go `strings.ToLower` (character-wise lowering; identical to Go on
the ASCII data this library manipulates). -/
def strToLower (s : Str) : Str := s.map Char.toLower

/-- Go `strings.HasPrefix`. -/
def startsWithStr (s pre : Str) : Bool := pre.isPrefixOf s

/-- The two-dash flag marker. -/
def dashdash : Str := ['-', '-']

/-- Go `strings.Cut(s, sep)` for a one-character separator: split
around the first occurrence of `sep`, returning
`(before, after, found)`. -/
def cutChar (s : Str) (sep : Char) : Str × Str × Bool :=
  match s with
  | [] => ([], [], false)
  | c :: rest =>
    if c = sep then ([], rest, true)
    else
      let r := cutChar rest sep
      (c :: r.1, r.2.1, r.2.2)

/-- Runtime payload of a flag value, covering the `BasicFlag` /
`ListFlag` shapes used here (`BasicFlag[bool]`, `BasicFlag[string]`,
`ListFlag[string]`). -/
inductive FlagValue : Type where
  | boolV (b : Bool)
  | strV (s : Str)
  | listStrV (l : List Str)
deriving DecidableEq

/-- Runtime flag value: the Go `Flag` interface (`GetName`,
`GetRawValue`) together with its typed payload. -/
structure Flag : Type where
  name : Str
  rawValue : Str
  value : FlagValue
deriving DecidableEq

/-- Parse errors of the library (`UnexpectedCommandArgError`,
`UnknownFlagNameError`, `DuplicateFlagNameError`,
`UnexpectedFlagValueError`, converter failures, `ExtraInputError`). -/
inductive ParseError : Type where
  | unexpectedCommandArg (arg : Str)
  | unknownFlagName (name : Str)
  | duplicateFlagName (name : Str)
  | unexpectedFlagValue (flag : Str) (value : Str)
  | converter (msg : Str)
  | extraInput (commandPath : List Str) (flags : List (Str × Flag))
      (args : List Str) (extra : List Str)
deriving DecidableEq

/-- Go `FlagParser` interface: `Parse(ctx, name, value, prior)`.
The context is dropped (none of the parsers uses it); an opaque Go
`error` is a `Str`. -/
structure FlagParser : Type where
  parse : Str → Str → Option Flag → Except Str Flag

/-- Go `FlagDef` (the help-only `Description` field is omitted). -/
structure FlagDef : Type where
  name : Str
  aliases : List Str
  valueAccepted : Bool
  onlyAfterCommandName : Bool
  parser : FlagParser

instance : Nonempty FlagParser := ⟨⟨fun _ _ _ => .error []⟩⟩

instance : Nonempty FlagDef :=
  ⟨⟨[], [], false, false, ⟨fun _ _ _ => .error []⟩⟩⟩

/-- Go `Command` (help/handler-only fields `Description`, `Hidden`,
`Handler` omitted). -/
inductive Command : Type where
  | mk (name : Str) (aliases : List Str) (flags : List FlagDef)
      (subcommands : List Command) (argsAccepted : Bool)
      (allowNonFlagFlags : Bool)

def Command.name : Command → Str
  | .mk n _ _ _ _ _ => n

def Command.aliases : Command → List Str
  | .mk _ a _ _ _ _ => a

def Command.flags : Command → List FlagDef
  | .mk _ _ f _ _ _ => f

def Command.subcommands : Command → List Command
  | .mk _ _ _ s _ _ => s

def Command.argsAccepted : Command → Bool
  | .mk _ _ _ _ a _ => a

def Command.allowNonFlagFlags : Command → Bool
  | .mk _ _ _ _ _ a => a

/-- Go `Application` from `application.go`. -/
structure Application : Type where
  commands : List Command
  flags : List FlagDef

/-- Go `parseable` interface (`subcommands()`, `flags()`,
`argsAccepted()`), reified as a record of the three methods' values. -/
structure Parseable : Type where
  flags : List FlagDef
  subcommands : List Command
  argsAccepted : Bool

/-- View of a `Command` through the `parseable` interface. -/
def Command.toParseable (c : Command) : Parseable :=
  ⟨c.flags, c.subcommands, c.argsAccepted⟩

/-- View of an `Application` through the `parseable` interface
(`Application.argsAccepted()` returns `false`). -/
def Application.toParseable (a : Application) : Parseable :=
  ⟨a.flags, a.commands, false⟩

/-- Lookup in a Go `map[string]FlagDef` modelled as an association
list. -/
def lookupDef (m : List (Str × FlagDef)) (k : Str) : Option FlagDef :=
  (m.find? (fun p => p.1 == k)).map (fun p => p.2)

/-- Lookup in a Go `map[string]Flag`; a missing key is Go's `nil`. -/
def mapGet (m : List (Str × Flag)) (k : Str) : Option Flag :=
  (m.find? (fun p => p.1 == k)).map (fun p => p.2)

/-- Assignment `m[k] = v` in a Go `map[string]Flag`: overwrite the
binding if the key is present, otherwise add it. -/
def mapSet (m : List (Str × Flag)) (k : Str) (v : Flag) :
    List (Str × Flag) :=
  if m.any (fun p => p.1 == k) then
    m.map (fun p => if p.1 == k then (k, v) else p)
  else m ++ [(k, v)]

mutual

/-- `listFlagDefs` from `flags.go`: the node's own definitions, filtered
by `!flag.OnlyAfterCommandName || activeCommand`, followed by every
subcommand's definitions collected with `activeCommand = false`. -/
def listFlagDefsCmd : Command → Bool → List FlagDef
  | .mk _ _ fls subs _ _, active =>
    fls.filter (fun d => !d.onlyAfterCommandName || active) ++
      listFlagDefsSubs subs

/-- The `for _, sub := range command.subcommands()` loop of
`listFlagDefs`, appending each child's recursive result in order. -/
def listFlagDefsSubs : List Command → List FlagDef
  | [] => []
  | c :: cs => listFlagDefsCmd c false ++ listFlagDefsSubs cs

end

/-- `listFlagDefs` applied to a `parseable` root (an `Application` or a
`Command` seen through the interface). -/
def listFlagDefsP (p : Parseable) (active : Bool) : List FlagDef :=
  p.flags.filter (fun d => !d.onlyAfterCommandName || active) ++
    listFlagDefsSubs p.subcommands

/-- Lower-cased keys a `FlagDef` claims in the flag namespace: its name
first, then its aliases, in order (the insertion order of `parse`). -/
def defKeys (d : FlagDef) : List Str :=
  strToLower d.name :: d.aliases.map strToLower

/-- Insert one definition's keys into the namespace map, failing with
`DuplicateFlagNameError` on the first key already present — the body of
the namespace-building loop of `parse` (`commands.go`). -/
def insertKeys (d : FlagDef) :
    List (Str × FlagDef) → List Str →
      Except ParseError (List (Str × FlagDef))
  | m, [] => .ok m
  | m, k :: ks =>
    if (lookupDef m k).isSome then .error (.duplicateFlagName k)
    else insertKeys d (m ++ [(k, d)]) ks

/-- The namespace-building loop of `parse` over the `listFlagDefs`
result: insert every definition under its name and each alias. -/
def buildFlagMapAux :
    List (Str × FlagDef) → List FlagDef →
      Except ParseError (List (Str × FlagDef))
  | m, [] => .ok m
  | m, d :: ds =>
    match insertKeys d m (defKeys d) with
    | .error e => .error e
    | .ok m2 => buildFlagMapAux m2 ds

/-- Build the flattened flag namespace (`allFlags` in `parse`). -/
def buildFlagMap (defs : List FlagDef) :
    Except ParseError (List (Str × FlagDef)) :=
  buildFlagMapAux [] defs

/-- Result of `parse` for one tree level (`parsedCommand` in
`commands.go`). -/
structure ParsedCommand : Type where
  subcommand : Option Command
  flags : List (Str × Flag)
  args : List Str
  unparsed : List Str

/-- Invoke a flag definition's parser with the invoked `name`, a
`value`, and the value previously bound under `name` (Go
`res.flags[name]`), then bind the result under the name the parser
returns (`res.flags[flag.GetName()] = flag`).  A parser failure becomes
`ParseError.converter`. -/
def bindFlag (d : FlagDef) (name value : Str)
    (flags : List (Str × Flag)) :
    Except ParseError (List (Str × Flag)) :=
  match d.parser.parse name value (mapGet flags name) with
  | .error e => .error (.converter e)
  | .ok fl => .ok (mapSet flags fl.name fl)

/-- Does `lowerArg` select this child?  Go compares the lowered token
with `strings.ToLower(sub.Name)` and each lowered alias. -/
def matchesSub (lowerArg : Str) (sub : Command) : Bool :=
  lowerArg == strToLower sub.name ||
    sub.aliases.any (fun al => lowerArg == strToLower al)

/-- The subcommand scan of `parse`: children are tested in declaration
order, first match wins. -/
def findSubcommand (subs : List Command) (lowerArg : Str) :
    Option Command :=
  subs.find? (matchesSub lowerArg)

/-- Outcome of handling one token of the `parse` loop: a fatal error, a
terminal result (subcommand matched), or the loop state for the next
token. -/
inductive StepResult : Type where
  | fail (e : ParseError)
  | done (res : ParsedCommand)
  | next (openFlag : Option (FlagDef × Str))
      (flags : List (Str × Flag)) (args : List Str)

/-- Handling of a recognized flag token once any open flag has been
closed (`commands.go` lines 131–161): reject an inline value on a
value-less flag; bind immediately when the flag takes no value or the
value is inline; otherwise leave the flag open for the next token. -/
def handleFound (d : FlagDef) (n v : Str) (hasValue : Bool)
    (flags : List (Str × Flag)) (args : List Str) : StepResult :=
  if !d.valueAccepted && hasValue then .fail (.unexpectedFlagValue n v)
  else if !d.valueAccepted || hasValue then
    match bindFlag d n v flags with
    | .error e => .fail e
    | .ok flags2 => .next none flags2 args
  else .next (some (d, n)) flags args

/-- Steps 2–3 of the token loop (`commands.go` lines 169–257): the
token `a` — the original token, or the lowered flag name when an
unknown two-dash token fell through — is a subcommand, a flag value, or
a positional argument. -/
def ordinary (root : Parseable) (openFlag : Option (FlagDef × Str))
    (flags : List (Str × Flag)) (args : List Str)
    (a : Str) (rest : List Str) : StepResult :=
  match findSubcommand root.subcommands (strToLower a) with
  | some sub =>
    match openFlag with
    | some (od, oa) =>
      match bindFlag od oa [] flags with
      | .error e => .fail e
      | .ok flags2 => .done ⟨some sub, flags2, args, rest⟩
    | none => .done ⟨some sub, flags, args, rest⟩
  | none =>
    match openFlag with
    | none =>
      if root.argsAccepted = false then .fail (.unexpectedCommandArg a)
      else .next none flags (args ++ [a])
    | some (od, oa) =>
      if root.argsAccepted = false then
        match bindFlag od oa a flags with
        | .error e => .fail e
        | .ok flags2 => .next none flags2 args
      else if rest = [] then .next (some (od, oa)) flags (args ++ [a])
      else
        match bindFlag od oa a flags with
        | .error e => .fail e
        | .ok flags2 => .next none flags2 args

/-- One iteration of the token loop of `parse`.  A two-dash token is
split on the first `=` and its name lower-cased; a known flag first
closes any open flag with an empty value, then is handled by
`handleFound`; an unknown flag errors unless `allowNonFlagFlags`, in
which case the lowered name falls through as an ordinary token (Go
reassigns `arg`). -/
def parseToken (root : Parseable) (allFlags : List (Str × FlagDef))
    (allowNonFlagFlags : Bool) (openFlag : Option (FlagDef × Str))
    (flags : List (Str × Flag)) (args : List Str)
    (tok : Str) (rest : List Str) : StepResult :=
  if startsWithStr tok dashdash then
    let c := cutChar (tok.drop 2) '='
    let n := strToLower c.1
    match lookupDef allFlags n with
    | some d =>
      match openFlag with
      | some (od, oa) =>
        match bindFlag od oa [] flags with
        | .error e => .fail e
        | .ok flags2 => handleFound d n c.2.1 c.2.2 flags2 args
      | none => handleFound d n c.2.1 c.2.2 flags args
    | none =>
      if !allowNonFlagFlags then .fail (.unknownFlagName n)
      else ordinary root openFlag flags args n rest
  else ordinary root openFlag flags args tok rest

/-- The token loop of `parse`: thread the open-flag state and the
accumulated flags and args through `parseToken`; reaching the end of
the stream returns with no subcommand and no unparsed tail (an open
flag is silently dropped). -/
def parseLoop (root : Parseable) (allFlags : List (Str × FlagDef))
    (allowNonFlagFlags : Bool) :
    Option (FlagDef × Str) → List (Str × Flag) → List Str →
      List Str → Except ParseError ParsedCommand
  | _, flags, args, [] => .ok ⟨none, flags, args, []⟩
  | openFlag, flags, args, tok :: rest =>
    match parseToken root allFlags allowNonFlagFlags openFlag flags args
        tok rest with
    | .fail e => .error e
    | .done res => .ok res
    | .next of2 fl2 ar2 => parseLoop root allFlags allowNonFlagFlags of2 fl2 ar2 rest

/-- `parse` from `commands.go`: empty input succeeds immediately;
otherwise build the flag namespace from `listFlagDefs(root, true)` and
run the token loop in the `Scanning` state. -/
def parse (root : Parseable) (args : List Str)
    (allowNonFlagFlags : Bool) : Except ParseError ParsedCommand :=
  if args.length < 1 then .ok ⟨none, [], [], []⟩
  else
    match buildFlagMap (listFlagDefsP root true) with
    | .error e => .error e
    | .ok allFlags => parseLoop root allFlags allowNonFlagFlags none [] [] args

/-- `RouteResult` from `route.go`; Go's zero-valued `Command` (no
subcommand ever matched) is `none`. -/
structure RouteResult : Type where
  command : Option Command
  flags : List (Str × Flag)
  args : List Str

/-- `maps.Copy(dst, src)`: every key of `src` is written into `dst`
(the final map does not depend on Go's random iteration order). -/
def mapsCopy (dst src : List (Str × Flag)) : List (Str × Flag) :=
  src.foldl (fun m p => mapSet m p.1 p.2) dst

theorem handleFound_ne_done (d : FlagDef) (n v : Str) (hv : Bool)
    (flags : List (Str × Flag)) (args : List Str)
    (r : ParsedCommand) (h : handleFound d n v hv flags args = .done r) :
    False := by
  unfold handleFound at h
  split at h
  · cases h
  · split at h
    · split at h <;> cases h
    · cases h

theorem ordinary_done (root : Parseable)
    (of : Option (FlagDef × Str)) (flags : List (Str × Flag))
    (args : List Str) (a : Str) (rest : List Str)
    (r : ParsedCommand) (h : ordinary root of flags args a rest = .done r) :
    r.subcommand.isSome ∧ r.unparsed = rest := by
  unfold ordinary at h
  (repeat' split at h) <;> first | (cases h; simp) | cases h

theorem parseToken_done (root : Parseable)
    (allFlags : List (Str × FlagDef)) (anff : Bool)
    (of : Option (FlagDef × Str)) (flags : List (Str × Flag))
    (args : List Str) (tok : Str) (rest : List Str)
    (r : ParsedCommand)
    (h : parseToken root allFlags anff of flags args tok rest = .done r) :
    r.subcommand.isSome ∧ r.unparsed = rest := by
  simp only [parseToken] at h
  (repeat' split at h) <;>
    first
      | cases h
      | exact (handleFound_ne_done _ _ _ _ _ _ _ h).elim
      | exact ordinary_done _ _ _ _ _ _ _ h

theorem parseLoop_ok_inv (root : Parseable)
    (allFlags : List (Str × FlagDef)) (anff : Bool) :
    ∀ (of : Option (FlagDef × Str)) (flags : List (Str × Flag))
      (args : List Str) (l : List Str) (res : ParsedCommand),
      parseLoop root allFlags anff of flags args l = .ok res →
      (res.subcommand = none → res.unparsed = []) ∧
      (res.subcommand.isSome → res.unparsed.length < l.length) := by
  intro of flags args l
  induction l generalizing of flags args with
  | nil =>
    intro res h
    simp only [parseLoop] at h
    cases h
    simp
  | cons tok rest ih =>
    intro res h
    simp only [parseLoop] at h
    cases hstep : parseToken root allFlags anff of flags args tok rest with
    | fail e => rw [hstep] at h; cases h
    | done r =>
      rw [hstep] at h
      cases h
      obtain ⟨hs, hu⟩ := parseToken_done _ _ _ _ _ _ _ _ _ hstep
      refine ⟨fun hn => ?_, fun _ => ?_⟩
      · rw [hn] at hs; cases hs
      · rw [hu]; simp
    | next of2 fl2 ar2 =>
      rw [hstep] at h
      obtain ⟨h1, h2⟩ := ih of2 fl2 ar2 res h
      exact ⟨h1, fun hs => Nat.lt_succ_of_lt (h2 hs)⟩

theorem parse_ok_inv (root : Parseable) (args : List Str)
    (anff : Bool) (res : ParsedCommand)
    (h : parse root args anff = .ok res) :
    (res.subcommand = none → res.unparsed = []) ∧
    (res.subcommand.isSome → res.unparsed.length < args.length) := by
  unfold parse at h
  split at h
  · cases h
    simp
  · split at h
    · cases h
    · exact parseLoop_ok_inv root _ anff none [] [] args res h

/-- The descent loop of `Route` (`route.go` lines 68–87): while a
subcommand was matched, record it as the current command, extend the
command path, re-parse its unconsumed tail under its own
`AllowNonFlagFlags` setting, and merge flags and args; once no child
matched, leftover unparsed tokens are an `ExtraInputError`, otherwise
the accumulated result is returned. -/
def routeLoop (acc : RouteResult) (cmdPath : List Str)
    (parsed : ParsedCommand) : Except ParseError RouteResult :=
  match hsub : parsed.subcommand with
  | none =>
    if parsed.unparsed.length > 0 then
      .error (.extraInput cmdPath acc.flags acc.args parsed.unparsed)
    else .ok acc
  | some c =>
    match hp : parse c.toParseable parsed.unparsed c.allowNonFlagFlags with
    | .error e => .error e
    | .ok parsed2 =>
      routeLoop
        ⟨some c, mapsCopy acc.flags parsed2.flags, acc.args ++ parsed2.args⟩
        (cmdPath ++ [c.name]) parsed2
termination_by
  parsed.unparsed.length + (if parsed.subcommand.isSome then 1 else 0)
decreasing_by
  simp only [hsub, Option.isSome_some, if_true]
  obtain ⟨h1, h2⟩ := parse_ok_inv _ _ _ _ hp
  cases hs2 : parsed2.subcommand with
  | none => simp [h1 hs2, hs2]
  | some c2 =>
    have hlt := h2 (by rw [hs2]; rfl)
    simp only [hs2, Option.isSome_some, if_true]
    omega

/-- `Route` from `route.go`: parse the input at the root level (with
`allowNonFlagFlags = false`), then drive the descent loop. -/
def Route (root : Application) (input : List Str) :
    Except ParseError RouteResult :=
  match parse root.toParseable input false with
  | .error e => .error e
  | .ok parsed =>
    routeLoop ⟨none, mapsCopy [] parsed.flags, [] ++ parsed.args⟩ [] parsed

/-- Discriminator: is this error the terminal `ExtraInputError`? -/
def ParseError.isExtraInput : ParseError → Bool
  | .extraInput _ _ _ _ => true
  | _ => false

/-- Discriminator on a routing outcome: did it fail with
`ExtraInputError`? -/
def routeHasExtraInput : Except ParseError RouteResult → Bool
  | .error e => e.isExtraInput
  | .ok _ => false

theorem bindFlag_notExtra (d : FlagDef) (n v : Str)
    (flags : List (Str × Flag)) (e : ParseError)
    (h : bindFlag d n v flags = .error e) : e.isExtraInput = false := by
  unfold bindFlag at h
  split at h
  · cases h; rfl
  · cases h

theorem handleFound_notExtra (d : FlagDef) (n v : Str) (hv : Bool)
    (flags : List (Str × Flag)) (args : List Str) (e : ParseError)
    (h : handleFound d n v hv flags args = .fail e) :
    e.isExtraInput = false := by
  unfold handleFound at h
  split at h
  · cases h; rfl
  · split at h
    · split at h
      · cases h; exact bindFlag_notExtra _ _ _ _ _ (by assumption)
      · cases h
    · cases h

theorem ordinary_notExtra (root : Parseable)
    (of : Option (FlagDef × Str)) (flags : List (Str × Flag))
    (args : List Str) (a : Str) (rest : List Str) (e : ParseError)
    (h : ordinary root of flags args a rest = .fail e) :
    e.isExtraInput = false := by
  unfold ordinary at h
  split at h
  · split at h
    · split at h
      · cases h; exact bindFlag_notExtra _ _ _ _ _ (by assumption)
      · cases h
    · cases h
  · split at h
    · split at h
      · cases h; rfl
      · cases h
    · split at h
      · split at h
        · cases h; exact bindFlag_notExtra _ _ _ _ _ (by assumption)
        · cases h
      · split at h
        · cases h
        · split at h
          · cases h; exact bindFlag_notExtra _ _ _ _ _ (by assumption)
          · cases h

theorem parseToken_notExtra (root : Parseable)
    (allFlags : List (Str × FlagDef)) (anff : Bool)
    (of : Option (FlagDef × Str)) (flags : List (Str × Flag))
    (args : List Str) (tok : Str) (rest : List Str)
    (e : ParseError)
    (h : parseToken root allFlags anff of flags args tok rest = .fail e) :
    e.isExtraInput = false := by
  simp only [parseToken] at h
  split at h
  · split at h
    · split at h
      · split at h
        · cases h; exact bindFlag_notExtra _ _ _ _ _ (by assumption)
        · exact handleFound_notExtra _ _ _ _ _ _ _ h
      · exact handleFound_notExtra _ _ _ _ _ _ _ h
    · split at h
      · cases h; rfl
      · exact ordinary_notExtra _ _ _ _ _ _ _ h
  · exact ordinary_notExtra _ _ _ _ _ _ _ h

theorem parseLoop_notExtra (root : Parseable)
    (allFlags : List (Str × FlagDef)) (anff : Bool) :
    ∀ (of : Option (FlagDef × Str)) (flags : List (Str × Flag))
      (args : List Str) (l : List Str) (e : ParseError),
      parseLoop root allFlags anff of flags args l = .error e →
      e.isExtraInput = false := by
  intro of flags args l
  induction l generalizing of flags args with
  | nil => intro e h; simp only [parseLoop] at h; cases h
  | cons tok rest ih =>
    intro e h
    simp only [parseLoop] at h
    cases hstep : parseToken root allFlags anff of flags args tok rest with
    | fail e2 =>
      rw [hstep] at h
      cases h
      exact parseToken_notExtra _ _ _ _ _ _ _ _ _ hstep
    | done r => rw [hstep] at h; cases h
    | next of2 fl2 ar2 => rw [hstep] at h; exact ih of2 fl2 ar2 e h

theorem insertKeys_notExtra (d : FlagDef) :
    ∀ (m : List (Str × FlagDef)) (ks : List Str) (e : ParseError),
      insertKeys d m ks = .error e → e.isExtraInput = false := by
  intro m ks
  induction ks generalizing m with
  | nil => intro e h; simp only [insertKeys] at h; cases h
  | cons k ks ih =>
    intro e h
    simp only [insertKeys] at h
    split at h
    · cases h; rfl
    · exact ih _ e h

theorem buildFlagMap_notExtra (defs : List FlagDef) (e : ParseError)
    (h : buildFlagMap defs = .error e) : e.isExtraInput = false := by
  unfold buildFlagMap at h
  revert h
  generalize ([] : List (Str × FlagDef)) = m
  induction defs generalizing m with
  | nil => intro h; simp only [buildFlagMapAux] at h; cases h
  | cons d ds ih =>
    intro h
    simp only [buildFlagMapAux] at h
    cases hins : insertKeys d m (defKeys d) with
    | error e2 =>
      rw [hins] at h
      cases h
      exact insertKeys_notExtra _ _ _ _ hins
    | ok m2 => rw [hins] at h; exact ih m2 h

theorem parse_notExtra (root : Parseable) (args : List Str)
    (anff : Bool) (e : ParseError) (h : parse root args anff = .error e) :
    e.isExtraInput = false := by
  unfold parse at h
  split at h
  · cases h
  · cases hb : buildFlagMap (listFlagDefsP root true) with
    | error e2 =>
      rw [hb] at h
      cases h
      exact buildFlagMap_notExtra _ _ hb
    | ok allFlags =>
      rw [hb] at h
      exact parseLoop_notExtra _ _ _ _ _ _ _ _ h

theorem routeLoop_none (acc : RouteResult) (cmdPath : List Str)
    (parsed : ParsedCommand) (h : parsed.subcommand = none) :
    routeLoop acc cmdPath parsed =
      if parsed.unparsed.length > 0 then
        .error (.extraInput cmdPath acc.flags acc.args parsed.unparsed)
      else .ok acc := by
  rw [routeLoop.eq_def]
  split
  · rfl
  · rename_i c hc
    rw [h] at hc
    cases hc

theorem routeLoop_some_err (acc : RouteResult) (cmdPath : List Str)
    (parsed : ParsedCommand) (c : Command) (e : ParseError)
    (h : parsed.subcommand = some c)
    (hp2 : parse c.toParseable parsed.unparsed c.allowNonFlagFlags =
      .error e) :
    routeLoop acc cmdPath parsed = .error e := by
  rw [routeLoop.eq_def]
  split
  · rename_i hc
    rw [h] at hc
    cases hc
  · rename_i c2 hc
    rw [h] at hc
    cases hc
    split
    · rename_i e2 hq
      rw [hp2] at hq
      cases hq
      rfl
    · rename_i p2 hq
      rw [hp2] at hq
      cases hq

theorem routeLoop_some_ok (acc : RouteResult) (cmdPath : List Str)
    (parsed : ParsedCommand) (c : Command) (parsed2 : ParsedCommand)
    (h : parsed.subcommand = some c)
    (hp2 : parse c.toParseable parsed.unparsed c.allowNonFlagFlags =
      .ok parsed2) :
    routeLoop acc cmdPath parsed =
      routeLoop
        ⟨some c, mapsCopy acc.flags parsed2.flags,
          acc.args ++ parsed2.args⟩
        (cmdPath ++ [c.name]) parsed2 := by
  rw [routeLoop.eq_def]
  split
  · rename_i hc
    rw [h] at hc
    cases hc
  · rename_i c2 hc
    rw [h] at hc
    cases hc
    split
    · rename_i e2 hq
      rw [hp2] at hq
      cases hq
    · rename_i p2 hq
      rw [hp2] at hq
      cases hq
      rfl

/-- Go `StringParser.Parse`: value and raw value always match, the
returned flag's name is the name the flag was invoked with. -/
def stringParser : FlagParser :=
  ⟨fun name value _ => .ok ⟨name, value, .strV value⟩⟩

/-- Go `strconv.ParseBool`: accepts the twelve literal spellings and
rejects anything else. -/
def parseBoolGo (s : Str) : Except Str Bool :=
  if s = "1".toList || s = "t".toList || s = "T".toList ||
      s = "true".toList || s = "TRUE".toList || s = "True".toList
    then .ok true
  else if s = "0".toList || s = "f".toList || s = "F".toList ||
      s = "false".toList || s = "FALSE".toList || s = "False".toList
    then .ok false
  else .error "invalid syntax".toList

/-- Go `BoolParser.Parse`: an empty value means `true`, otherwise the
`strconv.ParseBool` result; the raw value is the string as passed. -/
def boolParser : FlagParser :=
  ⟨fun name value _ =>
    if value = [] then .ok ⟨name, value, .boolV true⟩
    else
      match parseBoolGo value with
      | .error e => .error e
      | .ok b => .ok ⟨name, value, .boolV b⟩⟩

theorem routeLoopAux_notExtra :
    ∀ (n : Nat) (acc : RouteResult) (cmdPath : List Str)
      (parsed : ParsedCommand),
      parsed.unparsed.length +
        (if parsed.subcommand.isSome then 1 else 0) ≤ n →
      (parsed.subcommand = none → parsed.unparsed = []) →
      routeHasExtraInput (routeLoop acc cmdPath parsed) = false := by
  intro n
  induction n with
  | zero =>
    intro acc cmdPath parsed hm hinv
    cases hs : parsed.subcommand with
    | some c => rw [hs] at hm; simp at hm
    | none =>
      rw [routeLoop_none _ _ _ hs, hinv hs]
      simp [routeHasExtraInput]
  | succ n ih =>
    intro acc cmdPath parsed hm hinv
    cases hs : parsed.subcommand with
    | none =>
      rw [routeLoop_none _ _ _ hs, hinv hs]
      simp [routeHasExtraInput]
    | some c =>
      cases hp : parse c.toParseable parsed.unparsed c.allowNonFlagFlags with
      | error e =>
        rw [routeLoop_some_err _ _ _ _ _ hs hp]
        simp [routeHasExtraInput, parse_notExtra _ _ _ _ hp]
      | ok parsed2 =>
        rw [routeLoop_some_ok _ _ _ _ _ hs hp]
        apply ih
        · obtain ⟨h1, h2⟩ := parse_ok_inv _ _ _ _ hp
          rw [hs] at hm
          simp only [Option.isSome_some, if_true] at hm
          cases hs2 : parsed2.subcommand with
          | none =>
            rw [h1 hs2]
            have hz :
                (if (none : Option Command).isSome = true then 1 else 0) =
                  0 := rfl
            rw [hz]
            simp
          | some c2 =>
            have hlt := h2 (by rw [hs2]; rfl)
            have ho :
                (if (some c2 : Option Command).isSome = true then 1 else 0) =
                  1 := rfl
            rw [ho]
            omega
        · exact (parse_ok_inv _ _ _ _ hp).1

theorem Route_notExtra (root : Application) (input : List Str) :
    routeHasExtraInput (Route root input) = false := by
  unfold Route
  cases hp : parse root.toParseable input false with
  | error e => simp [routeHasExtraInput, parse_notExtra _ _ _ _ hp]
  | ok parsed =>
    exact routeLoopAux_notExtra (parsed.unparsed.length + 1) _ _ _
      (by split <;> omega) (parse_ok_inv _ _ _ _ hp).1

/-- Leaf command named `help`: no aliases, no flags, no subcommands,
`ArgsAccepted = false`, `AllowNonFlagFlags = false`. -/
def helpCmd : Command := .mk "help".toList [] [] [] false false

/-- Application with the single leaf command `help` and no global
flags (the extra-input scenario of the spec). -/
def demoApp : Application := ⟨[helpCmd], []⟩

theorem Route_demo_surplus :
    Route demoApp ["help".toList, "surplus".toList] =
      .error (.unexpectedCommandArg "surplus".toList) := by
  have h1 : parse demoApp.toParseable ["help".toList, "surplus".toList]
      false = .ok ⟨some helpCmd, [], [], ["surplus".toList]⟩ := rfl
  have h2 : parse helpCmd.toParseable ["surplus".toList] false =
      .error (.unexpectedCommandArg "surplus".toList) := rfl
  unfold Route
  rw [h1]
  exact routeLoop_some_err _ _ _ _ _ rfl h2

/-- Application with no commands and two global flags that share the
name `dup`. -/
def dupApp : Application :=
  ⟨[], [⟨"dup".toList, [], true, false, stringParser⟩,
    ⟨"dup".toList, [], true, false, stringParser⟩]⟩

/-- C1 (amended).  `Route` can never return the terminal extra-input
error: `parse` hands back a non-empty unparsed tail only together with
a matched subcommand, and the router always descends into the match, so
when the descent stops no unparsed tokens remain and the extra-input
branch of `Route` is unreachable.  In the spec's concrete scenario — a
matched leaf `help` with no subcommands and `ArgsAccepted = false`
followed by the surplus token `surplus` — `Route` instead fails with
the unexpected-argument error (`UnexpectedCommandArgError`) naming the
surplus token. -/
theorem claimC1 :
    (∀ (app : Application) (input : List Str),
      routeHasExtraInput (Route app input) = false) ∧
    Route demoApp ["help".toList, "surplus".toList] =
      .error (.unexpectedCommandArg "surplus".toList) :=
  ⟨Route_notExtra, Route_demo_surplus⟩

/-- C1 counterexample.  On the spec's own extra-input scenario the
routing outcome is the unexpected-argument error, not the extra-input
error the claim requires. -/
theorem claimC1_counterexample :
    Route demoApp ["help".toList, "surplus".toList] =
      .error (.unexpectedCommandArg "surplus".toList) ∧
    routeHasExtraInput
      (Route demoApp ["help".toList, "surplus".toList]) = false :=
  ⟨Route_demo_surplus, Route_notExtra demoApp _⟩

/-- C10.  An empty token list makes `parse` — and therefore `Route` —
succeed for every tree with no error, an empty flag map, no positional
arguments and no matched command, because `parse` returns before
building the flag namespace; with any token present the duplicate
definitions of `dupApp` are detected instead. -/
theorem claimC10 :
    (∀ (root : Parseable) (anff : Bool),
      parse root [] anff = .ok ⟨none, [], [], []⟩) ∧
    (∀ (app : Application), Route app [] = .ok ⟨none, [], []⟩) ∧
    Route dupApp [] = .ok ⟨none, [], []⟩ ∧
    Route dupApp ["x".toList] =
      .error (.duplicateFlagName "dup".toList) := by
  have hroute : ∀ (app : Application), Route app [] = .ok ⟨none, [], []⟩ := by
    intro app
    have h1 : parse app.toParseable [] false = .ok ⟨none, [], [], []⟩ := rfl
    unfold Route
    rw [h1]
    show routeLoop ⟨none, mapsCopy [] [], [] ++ []⟩ [] ⟨none, [], [], []⟩ =
      .ok ⟨none, [], []⟩
    rw [routeLoop_none _ _ _ rfl]
    rfl
  exact ⟨fun root anff => rfl, hroute, hroute dupApp, rfl⟩

/-- Basic flag definition with no aliases, using the string parser. -/
def strFlag (nm : Str) (va : Bool) : FlagDef := ⟨nm, [], va, false, stringParser⟩

/-- C3.  At a node that accepts positional arguments, while a flag is
awaiting its value, an ordinary token (no flag marker, no subcommand
match) that is the last token of the stream is appended to the
positional arguments, the loop succeeds, and the flag map is returned
unchanged — the pending flag is neither bound nor defaulted nor an
error; likewise, exhausting the stream while a flag is awaiting its
value leaves the flag map unchanged. -/
theorem claimC3 (root : Parseable) (allFlags : List (Str × FlagDef))
    (anff : Bool) (od : FlagDef) (oa : Str) (flags : List (Str × Flag))
    (args : List Str) (t : Str)
    (haccept : root.argsAccepted = true)
    (hmarker : startsWithStr t dashdash = false)
    (hsub : findSubcommand root.subcommands (strToLower t) = none) :
    parseLoop root allFlags anff (some (od, oa)) flags args [t] =
      .ok ⟨none, flags, args ++ [t], []⟩ ∧
    parseLoop root allFlags anff (some (od, oa)) flags args [] =
      .ok ⟨none, flags, args, []⟩ ∧
    (mapGet flags oa = none →
      ∀ res,
        parseLoop root allFlags anff (some (od, oa)) flags args [t] =
          .ok res →
        mapGet res.flags oa = none) := by
  have h1 : parseLoop root allFlags anff (some (od, oa)) flags args [t] =
      .ok ⟨none, flags, args ++ [t], []⟩ := by
    simp [parseLoop, parseToken, ordinary, hmarker, hsub, haccept]
  refine ⟨h1, rfl, fun habs res hres => ?_⟩
  rw [h1] at hres
  cases hres
  exact habs

/-- C3 witness: concrete instance at an args-accepting node with an
open string flag `o` and the single remaining token `x`. -/
theorem claimC3_witness :
    parseLoop ⟨[], [], true⟩ [] false
        (some (strFlag "o".toList true, "o".toList)) [] [] ["x".toList] =
      .ok ⟨none, [], ["x".toList], []⟩ ∧
    mapGet [] "o".toList = none := by
  refine ⟨?_, rfl⟩
  exact (claimC3 ⟨[], [], true⟩ [] false (strFlag "o".toList true)
    "o".toList [] [] "x".toList rfl (by decide) rfl).1

/-- Child named `Foo` with alias `f`, no flags, no subcommands. -/
def fooCmd : Command := .mk "Foo".toList ["f".toList] [] [] false false

/-- Leaf child named `bar`. -/
def barCmd : Command := .mk "bar".toList [] [] [] false false

/-- C6.  Subcommand selection: (1) when an ordinary token matches a
child, the scan short-circuits at once, returning that child with the
tokens strictly after the match as the unconsumed tail and the
positional arguments untouched; (2) a token matches a child exactly
when its lowered form equals the lowered child name or some lowered
alias; (3) children are tested in declaration order and the first match
wins. -/
theorem claimC6 :
    (∀ (root : Parseable) (allFlags : List (Str × FlagDef)) (anff : Bool)
      (flags : List (Str × Flag)) (args : List Str) (t : Str)
      (rest : List Str) (sub : Command),
      startsWithStr t dashdash = false →
      findSubcommand root.subcommands (strToLower t) = some sub →
      parseLoop root allFlags anff none flags args (t :: rest) =
        .ok ⟨some sub, flags, args, rest⟩) ∧
    (∀ (c : Command) (t : Str),
      matchesSub (strToLower t) c = true ↔
        (strToLower t = strToLower c.name ∨
          ∃ a ∈ c.aliases, strToLower t = strToLower a)) ∧
    (∀ (l : Str) (cs1 : List Command) (c : Command) (cs2 : List Command),
      (∀ c2 ∈ cs1, matchesSub l c2 = false) → matchesSub l c = true →
      findSubcommand (cs1 ++ c :: cs2) l = some c) := by
  refine ⟨?_, ?_, ?_⟩
  · intro root allFlags anff flags args t rest sub hmarker hfind
    simp [parseLoop, parseToken, ordinary, hmarker, hfind]
  · intro c t
    simp [matchesSub, List.any_eq_true, beq_iff_eq]
  · intro l cs1 c c2 hnone hmatch
    induction cs1 with
    | nil => simp [findSubcommand, List.find?_cons, hmatch]
    | cons a as ih =>
      have ha := hnone a (List.mem_cons_self a as)
      simp only [findSubcommand, List.cons_append, List.find?_cons, ha]
      exact ih fun c3 hc3 => hnone c3 (List.mem_cons_of_mem a hc3)

/-- C6 witness: `FOO`, `f` and `foo` all select `fooCmd`; `bar` matched
inside `[bar, extra]` short-circuits with `extra` as the tail; with
`barCmd` declared first and not matching, `f` still selects `fooCmd`. -/
theorem claimC6_witness :
    parseLoop ⟨[], [barCmd], true⟩ [] false none [] []
        ["bar".toList, "extra".toList] =
      .ok ⟨some barCmd, [], [], ["extra".toList]⟩ ∧
    matchesSub (strToLower "FOO".toList) fooCmd = true ∧
    matchesSub (strToLower "f".toList) fooCmd = true ∧
    matchesSub (strToLower "foo".toList) fooCmd = true ∧
    findSubcommand [barCmd, fooCmd] "f".toList = some fooCmd := by
  refine ⟨?_, ?_, ?_, ?_, ?_⟩
  · exact claimC6.1 ⟨[], [barCmd], true⟩ [] false [] [] "bar".toList
      ["extra".toList] barCmd (by decide) rfl
  · exact (claimC6.2.1 fooCmd "FOO".toList).mpr (by simp [fooCmd]; decide)
  · exact (claimC6.2.1 fooCmd "f".toList).mpr (by simp [fooCmd]; decide)
  · exact (claimC6.2.1 fooCmd "foo".toList).mpr (by simp [fooCmd]; decide)
  · exact claimC6.2.2 "f".toList [barCmd] fooCmd []
      (by intro c2 hc2; simp at hc2; subst hc2; decide) (by decide)

/-- C7.  When a flag is awaiting its value and the next token is (1) a
recognized flag token, or (2) a subcommand match, the pending flag is
closed first: its converter runs with the empty value and the value
previously bound under the pending name, the result is bound in the
flag map, and the parse fails at this point exactly when that converter
invocation fails.  In case (1) the scan then proceeds as if the same
token were read in the `Scanning` state; in case (2) the matched child
is committed with the tail after the token. -/
theorem claimC7 :
    (∀ (root : Parseable) (allFlags : List (Str × FlagDef)) (anff : Bool)
      (od : FlagDef) (oa : Str) (d : FlagDef) (flags : List (Str × Flag))
      (args : List Str) (tok : Str) (rest : List Str),
      startsWithStr tok dashdash = true →
      lookupDef allFlags (strToLower (cutChar (tok.drop 2) '=').1) =
        some d →
      (match od.parser.parse oa [] (mapGet flags oa) with
       | .error e =>
          parseLoop root allFlags anff (some (od, oa)) flags args
              (tok :: rest) =
            .error (.converter e)
       | .ok fl =>
          parseLoop root allFlags anff (some (od, oa)) flags args
              (tok :: rest) =
            parseLoop root allFlags anff none (mapSet flags fl.name fl)
              args (tok :: rest))) ∧
    (∀ (root : Parseable) (allFlags : List (Str × FlagDef)) (anff : Bool)
      (od : FlagDef) (oa : Str) (flags : List (Str × Flag))
      (args : List Str) (t : Str) (rest : List Str) (sub : Command),
      startsWithStr t dashdash = false →
      findSubcommand root.subcommands (strToLower t) = some sub →
      (match od.parser.parse oa [] (mapGet flags oa) with
       | .error e =>
          parseLoop root allFlags anff (some (od, oa)) flags args
              (t :: rest) =
            .error (.converter e)
       | .ok fl =>
          parseLoop root allFlags anff (some (od, oa)) flags args
              (t :: rest) =
            .ok ⟨some sub, mapSet flags fl.name fl, args, rest⟩)) := by
  constructor
  · intro root allFlags anff od oa d flags args tok rest hmarker hlook
    cases hres : od.parser.parse oa [] (mapGet flags oa) with
    | error e =>
      simp [parseLoop, parseToken, bindFlag, hmarker, hlook, hres]
    | ok fl =>
      simp [parseLoop, parseToken, bindFlag, hmarker, hlook, hres]
  · intro root allFlags anff od oa flags args t rest sub hmarker hfind
    cases hres : od.parser.parse oa [] (mapGet flags oa) with
    | error e =>
      simp [parseLoop, parseToken, ordinary, bindFlag, hmarker, hfind, hres]
    | ok fl =>
      simp [parseLoop, parseToken, ordinary, bindFlag, hmarker, hfind, hres]

/-- Value-less boolean flag definition named `b`. -/
def bDef : FlagDef := ⟨"b".toList, [], false, false, boolParser⟩

/-- C7 witness: with string flag `o` open, the recognized flag token
`--b` first closes `o` with an empty value (binding `o` to the empty
string), and the subcommand token `bar` closes `o` and commits the
child. -/
theorem claimC7_witness :
    parseLoop ⟨[], [], false⟩ [("b".toList, bDef)] false
        (some (strFlag "o".toList true, "o".toList)) [] []
        ["--b".toList] =
      parseLoop ⟨[], [], false⟩ [("b".toList, bDef)] false none
        [("o".toList, ⟨"o".toList, [], .strV []⟩)] [] ["--b".toList] ∧
    parseLoop ⟨[], [barCmd], false⟩ [] false
        (some (strFlag "o".toList true, "o".toList)) [] []
        ["bar".toList, "tail".toList] =
      .ok ⟨some barCmd, [("o".toList, ⟨"o".toList, [], .strV []⟩)], [],
        ["tail".toList]⟩ := by
  constructor
  · exact claimC7.1 ⟨[], [], false⟩ [("b".toList, bDef)] false
      (strFlag "o".toList true) "o".toList bDef [] [] "--b".toList []
      (by decide) rfl
  · exact claimC7.2 ⟨[], [barCmd], false⟩ [] false
      (strFlag "o".toList true) "o".toList [] [] "bar".toList
      ["tail".toList] barCmd (by decide) rfl

/-- C2 (amended).  For a two-dash token whose name (text after the
marker, up to the first `=`, lower-cased) is not in the flag namespace:
if unknown dash-dash tokens are disallowed, the parse fails with an
unknown-flag error naming that lowered name; if allowed, the token
falls through to subcommand/argument classification in REDUCED form —
the marker is stripped, any inline `=value` is discarded, and the name
is lower-cased (Go reassigns `arg`) — so it is that reduced name, not
the original token, that is matched against children and, if unmatched,
appended as the positional argument. -/
theorem claimC2 :
    (∀ (root : Parseable) (allFlags : List (Str × FlagDef))
      (of : Option (FlagDef × Str)) (flags : List (Str × Flag))
      (args : List Str) (tok : Str) (rest : List Str),
      startsWithStr tok dashdash = true →
      lookupDef allFlags (strToLower (cutChar (tok.drop 2) '=').1) =
        none →
      parseLoop root allFlags false of flags args (tok :: rest) =
        .error (.unknownFlagName
          (strToLower (cutChar (tok.drop 2) '=').1))) ∧
    (∀ (root : Parseable) (allFlags : List (Str × FlagDef))
      (flags : List (Str × Flag)) (args : List Str) (tok : Str)
      (rest : List Str),
      startsWithStr tok dashdash = true →
      lookupDef allFlags (strToLower (cutChar (tok.drop 2) '=').1) =
        none →
      findSubcommand root.subcommands
        (strToLower (strToLower (cutChar (tok.drop 2) '=').1)) = none →
      root.argsAccepted = true →
      parseLoop root allFlags true none flags args (tok :: rest) =
        parseLoop root allFlags true none flags
          (args ++ [strToLower (cutChar (tok.drop 2) '=').1]) rest) := by
  constructor
  · intro root allFlags of flags args tok rest hmarker hlook
    simp [parseLoop, parseToken, hmarker, hlook]
  · intro root allFlags flags args tok rest hmarker hlook hsub haccept
    simp [parseLoop, parseToken, ordinary, hmarker, hlook, hsub, haccept]

/-- C2 witness: an unknown `--NOPE` errors as `unknown flag "nope"`
when disallowed, and when allowed falls through as the reduced name
`nope`, which becomes the positional argument. -/
theorem claimC2_witness :
    parseLoop ⟨[], [], true⟩ [] false none [] [] ["--NOPE".toList] =
      .error (.unknownFlagName "nope".toList) ∧
    parseLoop ⟨[], [], true⟩ [] true none [] [] ["--NOPE".toList] =
      parseLoop ⟨[], [], true⟩ [] true none [] ["nope".toList] [] := by
  constructor
  · exact claimC2.1 ⟨[], [], true⟩ [] none [] [] "--NOPE".toList []
      (by decide) rfl
  · exact claimC2.2 ⟨[], [], true⟩ [] [] [] "--NOPE".toList []
      (by decide) rfl rfl rfl

/-- C2 counterexample.  With unknown dash-dash tokens allowed, the
token `--NOPE` is used as the positional argument `nope` — marker
stripped and name lower-cased — not verbatim as the claim states. -/
theorem claimC2_counterexample :
    parse ⟨[], [], true⟩ ["--NOPE".toList] true =
      .ok ⟨none, [], ["nope".toList], []⟩ ∧
    ("nope".toList : Str) ≠ "--NOPE".toList := by
  exact ⟨rfl, by decide⟩

theorem cutChar_no_sep (s : Str) (sep : Char)
    (h : (cutChar s sep).2.2 = false) : (cutChar s sep).2.1 = [] := by
  induction s with
  | nil => rfl
  | cons c rest ih =>
    by_cases hc : c = sep
    · simp [cutChar, hc] at h
    · simp only [cutChar, if_neg hc] at h ⊢
      exact ih h

/-- C5 (amended).  A recognized flag token that carries an inline value
or names a value-less flag invokes the converter immediately with that
value (the empty string when there is none, by the `cutChar` fact in
the second conjunct) and the previously bound value under the invoked
lower-cased name; the result is bound under the name the parser
returns (`flag.GetName()`), which for the built-in parsers is the
lower-cased name or alias as typed — not the definition's canonical
name. -/
theorem claimC5 :
    (∀ (root : Parseable) (allFlags : List (Str × FlagDef)) (anff : Bool)
      (d : FlagDef) (flags : List (Str × Flag)) (args : List Str)
      (tok : Str) (rest : List Str),
      startsWithStr tok dashdash = true →
      lookupDef allFlags (strToLower (cutChar (tok.drop 2) '=').1) =
        some d →
      ((d.valueAccepted = true ∧ (cutChar (tok.drop 2) '=').2.2 = true) ∨
        (d.valueAccepted = false ∧
          (cutChar (tok.drop 2) '=').2.2 = false)) →
      parseLoop root allFlags anff none flags args (tok :: rest) =
        (match d.parser.parse (strToLower (cutChar (tok.drop 2) '=').1)
            (cutChar (tok.drop 2) '=').2.1
            (mapGet flags (strToLower (cutChar (tok.drop 2) '=').1)) with
         | .error e => .error (.converter e)
         | .ok fl =>
            parseLoop root allFlags anff none (mapSet flags fl.name fl)
              args rest)) ∧
    (∀ (s : Str) (sep : Char),
      (cutChar s sep).2.2 = false → (cutChar s sep).2.1 = []) := by
  refine ⟨?_, cutChar_no_sep⟩
  intro root allFlags anff d flags args tok rest hmarker hlook hcase
  rcases hcase with ⟨hva, hhv⟩ | ⟨hva, hhv⟩ <;>
    cases hres : d.parser.parse (strToLower (cutChar (tok.drop 2) '=').1)
        (cutChar (tok.drop 2) '=').2.1
        (mapGet flags (strToLower (cutChar (tok.drop 2) '=').1)) <;>
      simp [parseLoop, parseToken, handleFound, bindFlag, hmarker, hlook,
        hva, hhv, hres]

/-- C5 witness: the inline-value token `--F=x` for the string flag `f`
invokes the converter at once and binds `f` to `x`; a token with no
inline value yields the empty value string. -/
theorem claimC5_witness :
    parseLoop ⟨[], [], false⟩ [("f".toList, strFlag "f".toList true)] false
        none [] [] ["--F=x".toList] =
      parseLoop ⟨[], [], false⟩ [("f".toList, strFlag "f".toList true)] false
        none [("f".toList, ⟨"f".toList, "x".toList, .strV "x".toList⟩)]
        [] [] ∧
    (cutChar ("--b".toList.drop 2) '=').2.1 = [] := by
  constructor
  · exact claimC5.1 ⟨[], [], false⟩ [("f".toList, strFlag "f".toList true)]
      false (strFlag "f".toList true) [] [] "--F=x".toList [] (by decide)
      rfl (Or.inl ⟨rfl, by decide⟩)
  · exact claimC5.2 ("--b".toList.drop 2) '=' (by decide)

/-- Flag definition named `verbose` with alias `v`. -/
def vDef : FlagDef :=
  ⟨"verbose".toList, ["v".toList], true, false, stringParser⟩

/-- Node owning only the `verbose`/`v` flag. -/
def vNode : Parseable := ⟨[vDef], [], false⟩

/-- C5 counterexample.  Invoking the flag through its alias spelled
`--V=x` binds the value under the key `v` (the lower-cased alias as
typed); nothing is bound under the definition's canonical name
`verbose`, contradicting the claim's canonical-name binding. -/
theorem claimC5_counterexample :
    parse vNode ["--V=x".toList] false =
      .ok ⟨none,
        [("v".toList, ⟨"v".toList, "x".toList, .strV "x".toList⟩)],
        [], []⟩ ∧
    mapGet [("v".toList, ⟨"v".toList, "x".toList, .strV "x".toList⟩)]
      "verbose".toList = none :=
  ⟨rfl, rfl⟩

/-- C4 (amended).  For a command owning a single value-accepting flag,
no subcommands, and NOT accepting positional arguments, the separated
spelling (`--f` followed by the value token) and the inline spelling
(`--f=x`) run the converter with the same invoked name, value and
prior, and so bind the same Runtime Flag Value (for the string parser,
raw value `x`).  The restriction to a node that does not accept
positional arguments is forced by the counterexample: when positional
arguments are accepted, the trailing value token of the separated
spelling is taken as a positional argument instead and the flag stays
unbound. -/
theorem claimC4 (d : FlagDef) (x t1 t2 : Str) (anff : Bool)
    (hal : d.aliases = [])
    (hva : d.valueAccepted = true)
    (h1 : startsWithStr t1 dashdash = true)
    (hn1 : strToLower (cutChar (t1.drop 2) '=').1 = strToLower d.name)
    (hv1 : (cutChar (t1.drop 2) '=').2 = ([], false))
    (h2 : startsWithStr t2 dashdash = true)
    (hn2 : strToLower (cutChar (t2.drop 2) '=').1 = strToLower d.name)
    (hv2 : (cutChar (t2.drop 2) '=').2 = (x, true))
    (hx : startsWithStr x dashdash = false) :
    parse ⟨[d], [], false⟩ [t1, x] anff =
      parse ⟨[d], [], false⟩ [t2] anff ∧
    parse ⟨[d], [], false⟩ [t2] anff =
      (match d.parser.parse (strToLower d.name) x none with
       | .error e => .error (.converter e)
       | .ok fl => .ok ⟨none, mapSet [] fl.name fl, [], []⟩) := by
  have hmap : buildFlagMap (listFlagDefsP ⟨[d], [], false⟩ true) =
      .ok [(strToLower d.name, d)] := by
    simp [listFlagDefsP, listFlagDefsSubs, buildFlagMap, buildFlagMapAux,
      insertKeys, defKeys, lookupDef, hal]
  have hlk : lookupDef [(strToLower d.name, d)] (strToLower d.name) =
      some d := by
    simp [lookupDef, List.find?]
  have hmg : mapGet [] (strToLower d.name) = none := rfl
  have hfs : ∀ (s : Str),
      findSubcommand (Parseable.subcommands ⟨[d], [], false⟩) s = none :=
    fun _ => rfl
  cases hres : d.parser.parse (strToLower d.name) x none with
  | error e =>
    constructor <;>
      simp [parse, hmap, parseLoop, parseToken, handleFound, ordinary,
        bindFlag, h1, hn1, hv1, h2, hn2, hv2, hx, hlk, hmg, hfs, hva,
        hres]
  | ok fl =>
    constructor <;>
      simp [parse, hmap, parseLoop, parseToken, handleFound, ordinary,
        bindFlag, h1, hn1, hv1, h2, hn2, hv2, hx, hlk, hmg, hfs, hva,
        hres]

/-- C4 witness: for the string flag `f` on a node that does not accept
positional arguments, `["--f", "x"]` and `["--f=x"]` produce identical
results, binding `f` with raw value `x`. -/
theorem claimC4_witness :
    parse ⟨[strFlag "f".toList true], [], false⟩
        ["--f".toList, "x".toList] false =
      parse ⟨[strFlag "f".toList true], [], false⟩ ["--f=x".toList] false ∧
    parse ⟨[strFlag "f".toList true], [], false⟩ ["--f=x".toList] false =
      .ok ⟨none,
        [("f".toList, ⟨"f".toList, "x".toList, .strV "x".toList⟩)],
        [], []⟩ := by
  have h := claimC4 (strFlag "f".toList true) "x".toList "--f".toList
    "--f=x".toList false rfl rfl (by decide) (by decide) (by decide)
    (by decide) (by decide) (by decide) (by decide)
  exact ⟨h.1, h.2⟩

/-- C4 counterexample.  On a command that accepts positional arguments
(the claim quantifies over every command with a value-accepting flag
and no subcommands), the separated spelling `["--f", "x"]` leaves `f`
unbound and takes `x` as a positional argument, while the inline
spelling `["--f=x"]` binds `f` to `x`: the two spellings are not
equivalent. -/
theorem claimC4_counterexample :
    parse ⟨[strFlag "f".toList true], [], true⟩
        ["--f".toList, "x".toList] false =
      .ok ⟨none, [], ["x".toList], []⟩ ∧
    parse ⟨[strFlag "f".toList true], [], true⟩ ["--f=x".toList] false =
      .ok ⟨none,
        [("f".toList, ⟨"f".toList, "x".toList, .strV "x".toList⟩)],
        [], []⟩ ∧
    ([] : List (Str × Flag)) ≠
      [("f".toList, ⟨"f".toList, "x".toList, .strV "x".toList⟩)] := by
  refine ⟨rfl, rfl, by decide⟩

mutual

/-- Every flag definition in a command's subtree, in traversal order
(reference collector for stating the visibility rule). -/
def allDefsCmd : Command → List FlagDef
  | .mk _ _ fls subs _ _ => fls ++ allDefsSubs subs

/-- Every flag definition in a forest of command subtrees. -/
def allDefsSubs : List Command → List FlagDef
  | [] => []
  | c :: cs => allDefsCmd c ++ allDefsSubs cs

end

mutual

theorem listFlagDefsCmd_false :
    ∀ (c : Command),
      listFlagDefsCmd c false =
        (allDefsCmd c).filter (fun d => !d.onlyAfterCommandName)
  | .mk n a fls subs aa an => by
    simp [listFlagDefsCmd, allDefsCmd, List.filter_append,
      listFlagDefsSubs_filter subs]

theorem listFlagDefsSubs_filter :
    ∀ (cs : List Command),
      listFlagDefsSubs cs =
        (allDefsSubs cs).filter (fun d => !d.onlyAfterCommandName)
  | [] => by simp [listFlagDefsSubs, allDefsSubs]
  | c :: cs => by
    simp [listFlagDefsSubs, allDefsSubs, List.filter_append,
      listFlagDefsCmd_false c, listFlagDefsSubs_filter cs]

end

/-- C8.  The flattened namespace input at the active level consists of
all of the node's own flag definitions (restricted or not) followed by
exactly the unrestricted definitions of its descendants, in traversal
order; consequently a descendant's restricted definition is never
collected at an ancestor's level. -/
theorem claimC8 :
    (∀ (p : Parseable),
      listFlagDefsP p true =
        p.flags ++ (allDefsSubs p.subcommands).filter
          (fun d => !d.onlyAfterCommandName)) ∧
    (∀ (d : FlagDef) (cs : List Command),
      d ∈ listFlagDefsSubs cs → d.onlyAfterCommandName = false) := by
  constructor
  · intro p
    simp [listFlagDefsP, listFlagDefsSubs_filter]
  · intro d cs hmem
    rw [listFlagDefsSubs_filter] at hmem
    have hm := List.mem_filter.mp hmem
    simpa using hm.2

/-- Unrestricted flag definition `p` owned by a child command. -/
def plainDef : FlagDef := ⟨"p".toList, [], false, false, stringParser⟩

/-- Restricted (`OnlyAfterCommandName = true`) flag definition `r`. -/
def restrictedDef : FlagDef :=
  ⟨"r".toList, [], false, true, stringParser⟩

/-- Child command owning one plain and one restricted definition. -/
def childWithFlags : Command :=
  .mk "c".toList [] [plainDef, restrictedDef] [] false false

/-- C8 witness: at a level owning the restricted `r` with a child
owning plain `p` and restricted `r2`, the active-level namespace input
is the own restricted flag followed by only the child's plain flag, and
the collected descendant definition is unrestricted. -/
theorem claimC8_witness :
    listFlagDefsP ⟨[restrictedDef], [childWithFlags], false⟩ true =
      [restrictedDef, plainDef] ∧
    plainDef.onlyAfterCommandName = false := by
  constructor
  · exact claimC8.1 ⟨[restrictedDef], [childWithFlags], false⟩
  · exact claimC8.2 plainDef [childWithFlags]
      (show plainDef ∈ ([plainDef] : List FlagDef) from
        List.mem_singleton.mpr rfl)

theorem lookupDef_cons (p : Str × FlagDef) (ps : List (Str × FlagDef))
    (k : Str) :
    lookupDef (p :: ps) k =
      if p.1 == k then some p.2 else lookupDef ps k := by
  by_cases h : (p.1 == k) = true
  · simp [lookupDef, List.find?, h]
  · have h2 : (p.1 == k) = false := by
      revert h
      cases p.1 == k <;> simp
    simp [lookupDef, List.find?, h2]

theorem lookupDef_none_iff (m : List (Str × FlagDef)) (k : Str) :
    lookupDef m k = none ↔ k ∉ m.map Prod.fst := by
  induction m with
  | nil => simp [lookupDef]
  | cons p ps ih =>
    rw [lookupDef_cons]
    by_cases hp : p.1 = k
    · simp [hp]
    · have hbeq : (p.1 == k) = false := beq_eq_false_iff_ne.mpr hp
      have hp2 : ¬(k = p.1) := fun h => hp h.symm
      simp [hbeq, hp2, ih]

theorem insertKeys_ok_iff (d : FlagDef) :
    ∀ (ks : List Str) (m : List (Str × FlagDef)),
      (∃ m2, insertKeys d m ks = .ok m2) ↔
        (ks.Nodup ∧ ∀ k ∈ ks, k ∉ m.map Prod.fst) := by
  intro ks
  induction ks with
  | nil => intro m; simp [insertKeys]
  | cons k ks ih =>
    intro m
    by_cases hk : (lookupDef m k).isSome
    · have hmem : k ∈ m.map Prod.fst := by
        by_contra hno
        rw [← lookupDef_none_iff] at hno
        rw [hno] at hk
        cases hk
      simp only [insertKeys, if_pos hk]
      constructor
      · rintro ⟨m2, hm2⟩
        cases hm2
      · rintro ⟨hnd, hall⟩
        exact absurd hmem (hall k (List.mem_cons_self k ks))
    · have hnone : lookupDef m k = none := by
        cases hc : lookupDef m k with
        | none => rfl
        | some d2 => rw [hc] at hk; simp at hk
      have hknot : k ∉ m.map Prod.fst := (lookupDef_none_iff m k).mp hnone
      simp only [insertKeys, if_neg hk]
      rw [ih (m ++ [(k, d)])]
      have hmm : ∀ k2 : Str,
          k2 ∈ (m ++ [(k, d)]).map Prod.fst ↔
            (k2 ∈ m.map Prod.fst ∨ k2 = k) := by
        intro k2
        simp [List.mem_append]
      constructor
      · rintro ⟨hnd, hall⟩
        refine ⟨List.nodup_cons.mpr ⟨?_, hnd⟩, ?_⟩
        · intro hkin
          exact (hall k hkin) ((hmm k).mpr (Or.inr rfl))
        · intro k2 hk2
          rcases List.mem_cons.mp hk2 with hk2 | hk2
          · subst hk2; exact hknot
          · intro hbad
            exact (hall k2 hk2) ((hmm k2).mpr (Or.inl hbad))
      · rintro ⟨hndc, hall⟩
        obtain ⟨hknotks, hnd⟩ := List.nodup_cons.mp hndc
        refine ⟨hnd, ?_⟩
        intro k2 hk2 hbad
        rcases (hmm k2).mp hbad with hbad2 | hbad2
        · exact (hall k2 (List.mem_cons_of_mem k hk2)) hbad2
        · subst hbad2
          exact hknotks hk2

theorem insertKeys_ok_keys (d : FlagDef) :
    ∀ (ks : List Str) (m m2 : List (Str × FlagDef)),
      insertKeys d m ks = .ok m2 →
      m2.map Prod.fst = m.map Prod.fst ++ ks := by
  intro ks
  induction ks with
  | nil =>
    intro m m2 h
    simp only [insertKeys] at h
    cases h
    simp
  | cons k ks ih =>
    intro m m2 h
    simp only [insertKeys] at h
    split at h
    · cases h
    · have hkeys := ih (m ++ [(k, d)]) m2 h
      simpa [List.append_assoc] using hkeys

theorem insertKeys_error_shape (d : FlagDef) :
    ∀ (ks : List Str) (m : List (Str × FlagDef)) (e : ParseError),
      insertKeys d m ks = .error e → ∃ k, e = .duplicateFlagName k := by
  intro ks
  induction ks with
  | nil => intro m e h; simp only [insertKeys] at h; cases h
  | cons k ks ih =>
    intro m e h
    simp only [insertKeys] at h
    split at h
    · cases h
      exact ⟨k, rfl⟩
    · exact ih _ e h

theorem buildAux_ok_iff :
    ∀ (defs : List FlagDef) (m : List (Str × FlagDef)),
      (m.map Prod.fst).Nodup →
      ((∃ m2, buildFlagMapAux m defs = .ok m2) ↔
        (m.map Prod.fst ++ defs.flatMap defKeys).Nodup) := by
  intro defs
  induction defs with
  | nil => intro m hm; simp [buildFlagMapAux, hm]
  | cons d ds ih =>
    intro m hm
    cases hins : insertKeys d m (defKeys d) with
    | error e =>
      have hno : ¬((defKeys d).Nodup ∧
          ∀ k ∈ defKeys d, k ∉ m.map Prod.fst) := by
        rw [← insertKeys_ok_iff d (defKeys d) m]
        rintro ⟨m2, hm2⟩
        rw [hins] at hm2
        cases hm2
      simp only [buildFlagMapAux, hins, List.flatMap_cons]
      constructor
      · rintro ⟨m2, hm2⟩
        cases hm2
      · intro hnd
        rw [← List.append_assoc, List.nodup_append] at hnd
        obtain ⟨hleft, hrest, hdisj⟩ := hnd
        rw [List.nodup_append] at hleft
        exact absurd ⟨hleft.2.1, fun k hk hbad => hleft.2.2 hbad hk⟩ hno
    | ok m2 =>
      have hkeys := insertKeys_ok_keys d (defKeys d) m m2 hins
      have hcond := (insertKeys_ok_iff d (defKeys d) m).mp ⟨m2, hins⟩
      have hm2nodup : (m2.map Prod.fst).Nodup := by
        rw [hkeys, List.nodup_append]
        exact ⟨hm, hcond.1, fun a ha hb => (hcond.2 a hb) ha⟩
      simp only [buildFlagMapAux, hins, List.flatMap_cons]
      rw [ih m2 hm2nodup, hkeys]
      rw [List.append_assoc]

theorem buildAux_error_shape :
    ∀ (defs : List FlagDef) (m : List (Str × FlagDef)) (e : ParseError),
      buildFlagMapAux m defs = .error e →
      ∃ k, e = .duplicateFlagName k := by
  intro defs
  induction defs with
  | nil => intro m e h; simp only [buildFlagMapAux] at h; cases h
  | cons d ds ih =>
    intro m e h
    simp only [buildFlagMapAux] at h
    cases hins : insertKeys d m (defKeys d) with
    | error e2 =>
      rw [hins] at h
      cases h
      exact insertKeys_error_shape d _ _ _ hins
    | ok m2 =>
      rw [hins] at h
      exact ih m2 e h

/-- C9.  Namespace construction over the visible definitions succeeds
exactly when all lower-cased names and aliases of those definitions are
pairwise distinct; any failure is a duplicate-flag-name error; and when
the input is non-empty a namespace-construction failure is the parse's
result, produced before any token is examined. -/
theorem claimC9 :
    (∀ (defs : List FlagDef),
      (∃ m, buildFlagMap defs = .ok m) ↔
        (defs.flatMap defKeys).Nodup) ∧
    (∀ (defs : List FlagDef) (e : ParseError),
      buildFlagMap defs = .error e → ∃ k, e = .duplicateFlagName k) ∧
    (∀ (root : Parseable) (args : List Str) (anff : Bool)
      (e : ParseError),
      args ≠ [] → buildFlagMap (listFlagDefsP root true) = .error e →
      parse root args anff = .error e) := by
  refine ⟨?_, ?_, ?_⟩
  · intro defs
    have h := buildAux_ok_iff defs [] (by simp)
    simpa [buildFlagMap] using h
  · intro defs e h
    exact buildAux_error_shape defs [] e h
  · intro root args anff e hne hbuild
    cases args with
    | nil => exact absurd rfl hne
    | cons a as =>
      simp [parse, hbuild]

/-- Node owning two flags that both claim the lower-cased key `dup`. -/
def dupNode : Parseable :=
  ⟨[strFlag "dup".toList true, strFlag "Dup".toList true], [], false⟩

/-- C9 witness: two distinct keys build successfully; the `dup`/`Dup`
collision (case-insensitive) makes `parse` fail with the
duplicate-flag-name error on any non-empty input, before the token
`x` is examined. -/
theorem claimC9_witness :
    (∃ m, buildFlagMap [strFlag "a".toList true, strFlag "b".toList true] =
      .ok m) ∧
    parse dupNode ["x".toList] false =
      .error (.duplicateFlagName "dup".toList) := by
  constructor
  · exact (claimC9.1 [strFlag "a".toList true, strFlag "b".toList true]).mpr
      (by decide)
  · exact claimC9.2.2 dupNode ["x".toList] false
      (.duplicateFlagName "dup".toList) (by simp) rfl

end Clif
